import Mathlib

/-!
Verification of the `file-lang-map` library: a shallow embedding of the
runtime resolver (`src/index.ts`) and of the offline index builder
(`scripts/generateJSONs.ts`), together with proofs of the specified
properties.

Strings are modelled as `List Char` (`Str`); JavaScript objects used as
string-keyed dictionaries are modelled as functions `Str → Option _`,
where `none` models an absent property (`undefined`).
-/

namespace FileLangMap

/-- JavaScript strings, modelled as lists of characters. -/
abbrev Str := List Char

/-- Convert a Lean string literal into the model's string type. -/
def str (x : String) : Str := x.data

/-- Model of JavaScript `String.prototype.toLowerCase` (simple case
mapping on basic latin letters, which is all the dataset's keys use). -/
def toLowerStr (x : Str) : Str := x.map Char.toLower

/-- Model of JavaScript `String.prototype.lastIndexOf` for a single
character: the index of the last occurrence, or `-1` when absent. -/
def lastIndexOf (ch : Char) : Str → Int
  | [] => -1
  | c :: cs =>
    let r := lastIndexOf ch cs
    if 0 ≤ r then r + 1 else if c = ch then 0 else -1

/-- Model of `getBasename` from `src/index.ts`: everything after the rightmost
occurrence of `/` or `\` (the whole input when neither occurs). -/
def getBasename (fileName : Str) : Str :=
  let fwd := lastIndexOf '/' fileName
  let back := lastIndexOf '\\' fileName
  let lastSlash := max fwd back
  if lastSlash = -1 then fileName else fileName.drop (lastSlash + 1).toNat

/-- Model of `getExtension` from `src/index.ts`: the substring of the basename
from its last dot (inclusive); empty when the dot is missing or is the
first character of the basename. -/
def getExtension (fileName : Str) (knownBaseName : Option Str) : Str :=
  let base := knownBaseName.getD (getBasename fileName)
  let lastDotIndex := lastIndexOf '.' base
  if lastDotIndex ≤ 0 then [] else base.drop lastDotIndex.toNat

/-- The `Language` record served by `languages.json` (see `src/types.ts`).
The category is kept as a raw string, as the builder copies whatever
string the raw dataset carries. -/
structure Language where
  name : Str
  type : Str
  extensions : List Str
  filenames : List Str
  group : Option Str
deriving DecidableEq

/-- The four generated structures consumed by the resolver
(`languagesData`, `extensionsData`, `filenamesData`, `typesData`). -/
structure ResolverData where
  languagesData : Str → Option Language
  extensionsData : Str → Option (List Str)
  filenamesData : Str → Option (List Str)
  typesData : Str → Option (List Str)

/-- Model of `getLanguage` from `src/index.ts`: case-insensitive lookup of the
language record by name. -/
def getLanguage (d : ResolverData) (languageName : Str) : Option Language :=
  let key := toLowerStr languageName
  d.languagesData key

/-- Model of `getLanguagesByType` from `src/index.ts`: `typesData[type] || []`. -/
def getLanguagesByType (d : ResolverData) (type : Str) : List Str :=
  (d.typesData type).getD []

/-- The candidate-resolution loop of `getLanguageByFileName`: resolve
each candidate key in `languagesData`, skip unresolvable keys, skip
records failing the (truthy) type filter, and collect display names.
A `some []` filter models passing the empty string, which is falsy in
JavaScript and hence disables filtering, exactly as `none` does. -/
def resolveCandidates (languagesData : Str → Option Language)
    (candidateKeys : List Str) (typeFilter : Option Str) : List Str :=
  candidateKeys.filterMap fun key =>
    match languagesData key with
    | none => none
    | some lang =>
      match typeFilter with
      | none => some lang.name
      | some f => if f ≠ [] ∧ lang.type ≠ f then none else some lang.name

/-- The candidate-key selection of `getLanguageByFileName`: the exact
basename's entry of the filename index when present (even when its list
is empty — a JavaScript array is truthy), otherwise the (truthy,
non-empty) extension's entry of the extension index, otherwise `[]`. -/
def candidateKeysFor (d : ResolverData) (fileName : Str) : List Str :=
  let base := getBasename fileName
  let ext := getExtension fileName none
  match d.filenamesData base with
  | some ks => ks
  | none => if ext ≠ [] then (d.extensionsData ext).getD [] else []

/-- Model of `getLanguageByFileName` from `src/index.ts`: exact-filename lookup
first, extension lookup otherwise, then resolve and filter; `none`
models the `null` "not found" signal. -/
def getLanguageByFileName (d : ResolverData) (fileName : Str)
    (typeFilter : Option Str) : Option (List Str) :=
  let candidateKeys := candidateKeysFor d fileName
  if candidateKeys = [] then none
  else
    let results := resolveCandidates d.languagesData candidateKeys typeFilter
    if 0 < results.length then some results else none

/-! ## The index builder (`scripts/generateJSONs.ts`) -/

/-- One entry of the raw linguist dataset (`LinguistDef`). Optional
lists are modelled as plain lists (an absent list and an empty list are
treated identically by the builder). -/
structure LinguistDef where
  type : Str
  extensions : List Str
  filenames : List Str
  group : Option Str
deriving DecidableEq

/-- The raw dataset: `Object.entries(rawLanguages)` in insertion order. -/
abbrev RawDataset := List (Str × LinguistDef)

/-- The `languagesDB` record built for one dataset entry. A falsy
(empty) `group` string is omitted, as `...(def.group && {group})` does. -/
def mkRecord (originalName : Str) (d : LinguistDef) : Language :=
  { name := originalName
    type := d.type
    extensions := d.extensions
    filenames := d.filenames
    group := match d.group with
             | some g => if g ≠ [] then some g else none
             | none => none }

/-- The `languagesDB` loop: for each entry, assign the record at the
lowercased name, overwriting any previous record at that key. -/
def buildLanguagesDB (raw : RawDataset) : Str → Option Language :=
  raw.foldl
    (fun db e =>
      let key := toLowerStr e.1
      fun k => if k = key then some (mkRecord e.1 e.2) else db k)
    (fun _ => none)

/-- One `push` into a reverse index: create the entry as `[]` when
absent, then append the key. -/
def pushKey (idx : Str → Option (List Str)) (ident key : Str) :
    Str → Option (List Str) :=
  fun i => if i = ident then some ((idx ident).getD [] ++ [key]) else idx i

/-- The reverse-index loops, shared shape of the extension and filename
index construction: for each dataset entry, push its lowercased key
onto every identifier the entry claims. -/
def buildReverseIndex (select : LinguistDef → List Str) (raw : RawDataset) :
    Str → Option (List Str) :=
  raw.foldl
    (fun idx e =>
      (select e.2).foldl (fun idx ident => pushKey idx ident (toLowerStr e.1)) idx)
    (fun _ => none)

/-- The `extensionIndex` of `generateJSONs`. -/
def buildExtensionIndex (raw : RawDataset) : Str → Option (List Str) :=
  buildReverseIndex (fun d => d.extensions) raw

/-- The `filenameIndex` of `generateJSONs`. -/
def buildFilenameIndex (raw : RawDataset) : Str → Option (List Str) :=
  buildReverseIndex (fun d => d.filenames) raw

/-- The four category keys preinitialised in `typesDB`. -/
def recognizedTypes : List Str :=
  [str "data", str "programming", str "markup", str "prose"]

/-- The initial `typesDB` object literal: the four categories mapped to
empty lists, nothing else present. -/
def initTypesDB : Str → Option (List Str) :=
  fun c => if c ∈ recognizedTypes then some [] else none

/-- The `typesDB` loop: `if (def.type && typesDB[def.type])` push the
original display name onto the category's list. -/
def buildTypesDB (raw : RawDataset) : Str → Option (List Str) :=
  raw.foldl
    (fun db e =>
      if e.2.type ≠ [] ∧ (db e.2.type).isSome then
        fun c => if c = e.2.type then some ((db e.2.type).getD [] ++ [e.1]) else db c
      else db)
    initTypesDB

/-- The four structures generated from a raw dataset, as loaded by the
resolver. -/
def buildResolverData (raw : RawDataset) : ResolverData :=
  { languagesData := buildLanguagesDB raw
    extensionsData := buildExtensionIndex raw
    filenamesData := buildFilenameIndex raw
    typesData := buildTypesDB raw }

/-! ## Concrete datasets for evaluating the definitions -/

/-- A small raw dataset shaped like the linguist data: an unambiguous
extension, an ambiguous one (`.rs`, claimed across categories), an
exact filename that also carries a registered extension (`pom.xml`),
and an extensionless exact filename (`Dockerfile`). -/
def rawW : RawDataset :=
  [ (str "TypeScript", ⟨str "programming", [str ".ts"], [], none⟩)
  , (str "JSON", ⟨str "data", [str ".json"], [], none⟩)
  , (str "Rust", ⟨str "programming", [str ".rs"], [], none⟩)
  , (str "RenderScript", ⟨str "programming", [str ".rs"], [], none⟩)
  , (str "XML", ⟨str "data", [str ".xml", str ".rs"], [], none⟩)
  , (str "Maven POM", ⟨str "data", [], [str "pom.xml"], none⟩)
  , (str "Dockerfile", ⟨str "programming", [], [str "Dockerfile"], none⟩) ]

/-- A raw dataset with a lowercase-key collision: two distinct
original-case names (`Foo`, `FOO`) in different categories sharing the
lowercased key `foo`. -/
def rawC7 : RawDataset :=
  [ (str "Foo", ⟨str "programming", [], [], none⟩)
  , (str "FOO", ⟨str "data", [], [], none⟩) ]

/-! ## Path-parsing lemmas -/

theorem neg_one_le_lastIndexOf (ch : Char) (l : Str) : -1 ≤ lastIndexOf ch l := by
  induction l with
  | nil => simp [lastIndexOf]
  | cons c cs ih =>
    simp only [lastIndexOf]
    split
    · omega
    · split <;> omega

theorem lastIndexOf_eq_neg_one_iff (ch : Char) (l : Str) :
    lastIndexOf ch l = -1 ↔ ch ∉ l := by
  induction l with
  | nil => simp [lastIndexOf]
  | cons c cs ih =>
    have hge := neg_one_le_lastIndexOf ch cs
    simp only [lastIndexOf, List.mem_cons]
    split
    · rename_i hr
      constructor
      · intro h; omega
      · intro h
        exact absurd (ih.mpr fun hm => h (Or.inr hm)) (by omega)
    · rename_i hr
      split
      · rename_i hc
        constructor
        · intro h; omega
        · intro h; exact absurd (Or.inl hc.symm) h
      · rename_i hc
        constructor
        · intro _ h
          rcases h with h | h
          · exact hc h.symm
          · exact absurd ((ih.mp (by omega)) h) (fun h => h)
        · intro _; rfl

theorem not_mem_drop_of_lastIndexOf_lt (ch : Char) (l : Str) :
    ∀ i : Nat, lastIndexOf ch l < (i : Int) → ch ∉ l.drop i := by
  induction l with
  | nil => intro i _; simp
  | cons c cs ih =>
    intro i hi
    match i with
    | 0 =>
      have hge := neg_one_le_lastIndexOf ch (c :: cs)
      have : lastIndexOf ch (c :: cs) = -1 := by omega
      simpa using (lastIndexOf_eq_neg_one_iff ch (c :: cs)).mp this
    | i + 1 =>
      simp only [List.drop_succ_cons]
      apply ih
      have hge := neg_one_le_lastIndexOf ch cs
      revert hi
      simp only [lastIndexOf]
      split
      · intro h; push_cast at h; omega
      · intro _; omega

theorem sep_not_mem_getBasename (l : Str) :
    '/' ∉ getBasename l ∧ '\\' ∉ getBasename l := by
  have hf := neg_one_le_lastIndexOf '/' l
  have hb := neg_one_le_lastIndexOf '\\' l
  simp only [getBasename]
  split
  · rename_i h
    constructor
    · exact (lastIndexOf_eq_neg_one_iff '/' l).mp (by omega)
    · exact (lastIndexOf_eq_neg_one_iff '\\' l).mp (by omega)
  · rename_i h
    constructor
    · apply not_mem_drop_of_lastIndexOf_lt
      omega
    · apply not_mem_drop_of_lastIndexOf_lt
      omega

theorem getBasename_eq_self (l : Str) (h1 : '/' ∉ l) (h2 : '\\' ∉ l) :
    getBasename l = l := by
  have hf := (lastIndexOf_eq_neg_one_iff '/' l).mpr h1
  have hb := (lastIndexOf_eq_neg_one_iff '\\' l).mpr h2
  simp [getBasename, hf, hb]

theorem getBasename_idem (l : Str) :
    getBasename (getBasename l) = getBasename l :=
  getBasename_eq_self _ (sep_not_mem_getBasename l).1 (sep_not_mem_getBasename l).2

theorem getExtension_getBasename (l : Str) :
    getExtension (getBasename l) none = getExtension l none := by
  simp [getExtension, getBasename_idem]

/-! ## Lowercasing lemmas -/

theorem toNat_ofNat_of_valid {n : Nat} (h : n.isValidChar) :
    (Char.ofNat n).toNat = n := by
  rw [Char.ofNat, dif_pos h]
  rfl

theorem toLower_toLower (c : Char) :
    Char.toLower (Char.toLower c) = Char.toLower c := by
  unfold Char.toLower
  by_cases h : c.toNat ≥ 65 ∧ c.toNat ≤ 90
  · rw [if_pos h]
    have hv : (c.toNat + 32).isValidChar := Or.inl (by omega)
    have ht : (Char.ofNat (c.toNat + 32)).toNat = c.toNat + 32 :=
      toNat_ofNat_of_valid hv
    rw [if_neg (by omega)]
  · rw [if_neg h, if_neg h]

theorem toLowerStr_idem (x : Str) : toLowerStr (toLowerStr x) = toLowerStr x := by
  simp [toLowerStr, Function.comp_def, toLower_toLower]

/-! ## Language store characterization: last write wins -/

theorem buildLanguagesDB_foldl (raw : RawDataset) :
    ∀ (db : Str → Option Language) (k : Str),
    (raw.foldl
      (fun db e =>
        let key := toLowerStr e.1
        fun k => if k = key then some (mkRecord e.1 e.2) else db k)
      db) k =
    match raw.reverse.find? (fun e => decide (toLowerStr e.1 = k)) with
    | some e => some (mkRecord e.1 e.2)
    | none => db k := by
  induction raw with
  | nil => intro db k; rfl
  | cons e t ih =>
    intro db k
    rw [List.foldl_cons, ih]
    simp only [List.reverse_cons, List.find?_append]
    cases h : t.reverse.find? (fun e => decide (toLowerStr e.1 = k)) with
    | some e' => simp [Option.or]
    | none =>
      simp only [Option.or]
      by_cases hk : toLowerStr e.1 = k
      · simp [List.find?_cons, hk]
      · simp [List.find?_cons, hk]
        intro h'
        exact absurd h'.symm hk

theorem buildLanguagesDB_isSome_of_mem (raw : RawDataset) (k : Str)
    (h : ∃ x ∈ raw, toLowerStr x.1 = k) :
    ∃ rec, buildLanguagesDB raw k = some rec := by
  rw [buildLanguagesDB, buildLanguagesDB_foldl]
  obtain ⟨x, hx, hk⟩ := h
  have : ∃ y ∈ raw.reverse, (fun e => decide (toLowerStr e.1 = k)) y = true :=
    ⟨x, List.mem_reverse.mpr hx, by simp [hk]⟩
  obtain ⟨y, hy⟩ := Option.isSome_iff_exists.mp (List.find?_isSome.mpr this)
  rw [hy]
  exact ⟨mkRecord y.1 y.2, rfl⟩

theorem buildLanguagesDB_self (raw : RawDataset)
    (hkeys : (raw.map (fun x => toLowerStr x.1)).Nodup) :
    ∀ x ∈ raw, buildLanguagesDB raw (toLowerStr x.1) = some (mkRecord x.1 x.2) := by
  intro x hx
  rw [buildLanguagesDB, buildLanguagesDB_foldl]
  have hex : ∃ y ∈ raw.reverse,
      (fun e => decide (toLowerStr e.1 = toLowerStr x.1)) y = true :=
    ⟨x, List.mem_reverse.mpr hx, by simp⟩
  obtain ⟨y, hy⟩ := Option.isSome_iff_exists.mp (List.find?_isSome.mpr hex)
  have hpy : toLowerStr y.1 = toLowerStr x.1 := by
    simpa using List.find?_some hy
  have hmy : y ∈ raw := List.mem_reverse.mp (List.mem_of_find?_eq_some hy)
  have : y = x := List.inj_on_of_nodup_map hkeys hmy hx hpy
  rw [hy, this]

/-! ## Reverse-index characterization -/

/-- The keys pushed onto reverse-index entry `ident` while processing a
dataset, in push order: one occurrence per matching identifier
occurrence, in dataset order. -/
def keysFor (select : LinguistDef → List Str) (ident : Str) : RawDataset → List Str
  | [] => []
  | x :: t =>
    ((select x.2).filter (fun i => decide (i = ident))).map (fun _ => toLowerStr x.1)
      ++ keysFor select ident t

theorem foldl_pushKey (idents : List Str) :
    ∀ (idx : Str → Option (List Str)) (key ident : Str),
    (idents.foldl (fun idx i => pushKey idx i key) idx) ident =
    if idents.filter (fun i => decide (i = ident)) = [] then idx ident
    else some ((idx ident).getD [] ++
      (idents.filter (fun i => decide (i = ident))).map (fun _ => key)) := by
  induction idents with
  | nil => intro idx key ident; simp
  | cons i t ih =>
    intro idx key ident
    rw [List.foldl_cons, ih]
    by_cases hi : i = ident
    · subst hi
      have hfc : (i :: t).filter (fun j => decide (j = i)) =
          i :: t.filter (fun j => decide (j = i)) := by
        simp [List.filter_cons]
      have hp : pushKey idx i key i = some ((idx i).getD [] ++ [key]) := by
        simp [pushKey]
      rw [hfc]
      by_cases ht : t.filter (fun j => decide (j = i)) = []
      · rw [if_pos ht, ht, hp, if_neg (List.cons_ne_nil _ _)]
        simp
      · rw [if_neg ht, hp, if_neg (List.cons_ne_nil _ _)]
        simp [List.append_assoc]
    · have hne : ¬ ident = i := fun h => hi h.symm
      have hfc : (i :: t).filter (fun j => decide (j = ident)) =
          t.filter (fun j => decide (j = ident)) := by
        simp [List.filter_cons, hi]
      have hp : pushKey idx i key ident = idx ident := by
        simp [pushKey, hne]
      rw [hfc, hp]

theorem buildReverseIndex_foldl (raw : RawDataset) :
    ∀ (idx : Str → Option (List Str)) (select : LinguistDef → List Str) (ident : Str),
    (raw.foldl
      (fun idx e =>
        (select e.2).foldl (fun idx i => pushKey idx i (toLowerStr e.1)) idx)
      idx) ident =
    if keysFor select ident raw = [] then idx ident
    else some ((idx ident).getD [] ++ keysFor select ident raw) := by
  induction raw with
  | nil => intro idx select ident; simp [keysFor]
  | cons x t ih =>
    intro idx select ident
    rw [List.foldl_cons, ih]
    have hinner := foldl_pushKey (select x.2) idx (toLowerStr x.1) ident
    have hk : keysFor select ident (x :: t) =
        ((select x.2).filter (fun i => decide (i = ident))).map
          (fun _ => toLowerStr x.1) ++ keysFor select ident t := rfl
    by_cases hA : (select x.2).filter (fun i => decide (i = ident)) = []
    · rw [if_pos hA] at hinner
      rw [hk, hA, List.map_nil, List.nil_append, hinner]
    · rw [if_neg hA] at hinner
      have hAne : ((select x.2).filter (fun i => decide (i = ident))).map
          (fun _ => toLowerStr x.1) ≠ [] := by
        intro h
        exact hA (List.map_eq_nil_iff.mp h)
      by_cases hB : keysFor select ident t = []
      · rw [if_pos hB, hk, hB, List.append_nil, if_neg hAne, hinner]
      · have hABne : ((select x.2).filter (fun i => decide (i = ident))).map
            (fun _ => toLowerStr x.1) ++ keysFor select ident t ≠ [] := by
          intro h
          exact hAne (List.append_eq_nil.mp h).1
        rw [if_neg hB, hk, if_neg hABne, hinner]
        rw [Option.getD_some, List.append_assoc]

theorem buildReverseIndex_eq (select : LinguistDef → List Str) (raw : RawDataset)
    (ident : Str) :
    buildReverseIndex select raw ident =
    if keysFor select ident raw = [] then none
    else some (keysFor select ident raw) := by
  rw [buildReverseIndex, buildReverseIndex_foldl]
  by_cases h : keysFor select ident raw = [] <;> simp [h]

theorem mem_keysFor (select : LinguistDef → List Str) (ident k : Str)
    (raw : RawDataset) (h : k ∈ keysFor select ident raw) :
    ∃ x ∈ raw, toLowerStr x.1 = k := by
  induction raw with
  | nil => simp [keysFor] at h
  | cons x t ih =>
    simp only [keysFor, List.mem_append] at h
    rcases h with h | h
    · obtain ⟨i, _, hk⟩ := List.mem_map.mp h
      exact ⟨x, List.mem_cons_self x t, hk⟩
    · obtain ⟨y, hy, hk⟩ := ih h
      exact ⟨y, List.mem_cons_of_mem x hy, hk⟩

/-! ## Category-index characterization -/

theorem buildTypesDB_foldl (raw : RawDataset) :
    ∀ (db : Str → Option (List Str)) (c : Str),
    (raw.foldl
      (fun db e =>
        if e.2.type ≠ [] ∧ (db e.2.type).isSome then
          fun c => if c = e.2.type then some ((db e.2.type).getD [] ++ [e.1]) else db c
        else db)
      db) c =
    match db c with
    | none => none
    | some l =>
      some (l ++ if c = [] then []
        else (raw.filter (fun x => decide (x.2.type = c))).map Prod.fst) := by
  induction raw with
  | nil =>
    intro db c
    show db c = _
    cases hc : db c with
    | none => rfl
    | some l => by_cases h : c = [] <;> simp [h]
  | cons x t ih =>
    intro db c
    rw [List.foldl_cons, ih]
    cases hc : db c with
    | none =>
      have hstep : (if x.2.type ≠ [] ∧ (db x.2.type).isSome then
          fun c => if c = x.2.type then some ((db x.2.type).getD [] ++ [x.1]) else db c
          else db) c = none := by
        split
        · by_cases hxc : c = x.2.type
          · rename_i hg
            subst hxc
            rw [hc] at hg
            simp at hg
          · simp [hxc, hc]
        · exact hc
      rw [hstep]
    | some l =>
      by_cases hx : x.2.type = c
      · by_cases hce : c = []
        · subst hce
          have hg : ¬ (x.2.type ≠ [] ∧ (db x.2.type).isSome) := by
            simp [hx]
          rw [if_neg hg, hc]
          simp
        · have hg : x.2.type ≠ [] ∧ (db x.2.type).isSome := by
            rw [hx, hc]; exact ⟨hce, rfl⟩
          rw [if_pos hg]
          have hxc : c = x.2.type := hx.symm
          rw [if_pos hxc, hx, hc, Option.getD_some]
          have hfc : (x :: t).filter (fun y => decide (y.2.type = c)) =
              x :: t.filter (fun y => decide (y.2.type = c)) := by
            simp [List.filter_cons, hx]
          rw [hfc]
          simp [hce, List.append_assoc]
      · have hcx : ¬ c = x.2.type := fun h => hx h.symm
        have hstep : (if x.2.type ≠ [] ∧ (db x.2.type).isSome then
            fun c => if c = x.2.type then some ((db x.2.type).getD [] ++ [x.1]) else db c
            else db) c = some l := by
          split
          · show (if c = x.2.type then some ((db x.2.type).getD [] ++ [x.1]) else db c)
              = some l
            rw [if_neg hcx]
            exact hc
          · exact hc
        rw [hstep]
        have hfc : (x :: t).filter (fun y => decide (y.2.type = c)) =
            t.filter (fun y => decide (y.2.type = c)) := by
          simp [List.filter_cons, hx]
        rw [hfc]

theorem buildTypesDB_eq (raw : RawDataset) (c : Str) :
    buildTypesDB raw c =
    if c ∈ recognizedTypes then
      some ((raw.filter (fun x => decide (x.2.type = c))).map Prod.fst)
    else none := by
  rw [buildTypesDB, buildTypesDB_foldl]
  by_cases h : c ∈ recognizedTypes
  · have hin : initTypesDB c = some [] := by simp [initTypesDB, h]
    have hce : ¬ c = [] := by
      intro he
      subst he
      revert h
      decide
    rw [hin]
    simp [h, hce]
  · have hin : initTypesDB c = none := by simp [initTypesDB, h]
    rw [hin]
    simp [h]

/-! ## Duplicate-free helper lemmas -/

theorem filter_eq_singleton_of_nodup (e : Str) (l : List Str) (h : l.Nodup) :
    l.filter (fun i => decide (i = e)) = if e ∈ l then [e] else [] := by
  induction l with
  | nil => simp
  | cons a t ih =>
    rw [List.nodup_cons] at h
    by_cases ha : a = e
    · subst ha
      have ht : a ∉ t := h.1
      have : t.filter (fun i => decide (i = a)) = [] := by
        rw [ih h.2, if_neg ht]
      simp [List.filter_cons, this]
    · have hea : ¬ e = a := fun he => ha he.symm
      rw [List.filter_cons]
      simp only [decide_eq_true_eq]
      rw [if_neg ha, ih h.2]
      by_cases het : e ∈ t
      · rw [if_pos het, if_pos (List.mem_cons_of_mem a het)]
      · rw [if_neg het, if_neg (by simp [List.mem_cons, hea, het])]

theorem keysFor_eq_of_nodup (select : LinguistDef → List Str) (e : Str)
    (raw : RawDataset) (h : ∀ x ∈ raw, (select x.2).Nodup) :
    keysFor select e raw =
    (raw.filter (fun x => decide (e ∈ select x.2))).map (fun x => toLowerStr x.1) := by
  induction raw with
  | nil => rfl
  | cons x t ih =>
    have hx := h x (List.mem_cons_self x t)
    have ht := fun y hy => h y (List.mem_cons_of_mem x hy)
    show ((select x.2).filter (fun i => decide (i = e))).map (fun _ => toLowerStr x.1)
        ++ keysFor select e t = _
    rw [filter_eq_singleton_of_nodup e _ hx, ih ht]
    by_cases he : e ∈ select x.2
    · rw [if_pos he]
      have hfc : (x :: t).filter (fun y => decide (e ∈ select y.2)) =
          x :: t.filter (fun y => decide (e ∈ select y.2)) := by
        simp [List.filter_cons, he]
      rw [hfc]
      simp
    · rw [if_neg he]
      have hfc : (x :: t).filter (fun y => decide (e ∈ select y.2)) =
          t.filter (fun y => decide (e ∈ select y.2)) := by
        simp [List.filter_cons, he]
      rw [hfc]
      simp

/-! ## Candidate-resolution lemmas -/

theorem resolveCandidates_map_keys (raw : RawDataset)
    (hkeys : (raw.map (fun x => toLowerStr x.1)).Nodup) :
    ∀ c : List (Str × LinguistDef), (∀ x ∈ c, x ∈ raw) →
    resolveCandidates (buildLanguagesDB raw) (c.map (fun x => toLowerStr x.1)) none =
      c.map Prod.fst := by
  intro c
  induction c with
  | nil => intro _; rfl
  | cons x t ih =>
    intro hmem
    have hx := buildLanguagesDB_self raw hkeys x (hmem x (List.mem_cons_self x t))
    have ht := ih fun y hy => hmem y (List.mem_cons_of_mem x hy)
    simp only [List.map_cons, resolveCandidates, List.filterMap_cons] at ht ⊢
    simp only [hx, mkRecord]
    rw [ht]

theorem filterMap_sublist_of_imp {α β : Type} (l : List α) (f g : α → Option β)
    (h : ∀ x y, f x = some y → g x = some y) :
    List.Sublist (l.filterMap f) (l.filterMap g) := by
  induction l with
  | nil => exact List.Sublist.refl _
  | cons a t ih =>
    cases hf : f a with
    | none =>
      rw [List.filterMap_cons_none hf]
      cases hg : g a with
      | none => rw [List.filterMap_cons_none hg]; exact ih
      | some b => rw [List.filterMap_cons_some hg]; exact ih.cons b
    | some b =>
      rw [List.filterMap_cons_some hf, List.filterMap_cons_some (h a b hf)]
      exact ih.cons₂ b

theorem resolveCandidates_sublist (langs : Str → Option Language)
    (keys : List Str) (tf : Option Str) :
    List.Sublist (resolveCandidates langs keys tf) (resolveCandidates langs keys none) := by
  cases tf with
  | none => exact List.Sublist.refl _
  | some f =>
    apply filterMap_sublist_of_imp
    intro key y hf
    cases hl : langs key with
    | none => rw [hl] at hf; exact absurd hf (by simp)
    | some lang =>
      rw [hl] at hf
      have hf' : (if f ≠ [] ∧ lang.type ≠ f then none else some lang.name : Option Str)
          = some y := hf
      simp only [hl]
      by_cases hc : f ≠ [] ∧ lang.type ≠ f
      · rw [if_pos hc] at hf'
        exact absurd hf' (by simp)
      · rw [if_neg hc] at hf'
        exact hf'

/-! ## Claim theorems -/

/-- Claim C1: for every input path whose basename is a key of the
filename reverse index, `getLanguageByFileName` resolves via the
filename index's candidate list and never consults the extension index
(the result is invariant under replacing the extension index), even
when the basename's suffix is also a key of the extension index. -/
theorem exact_filename_match_precedence (langs : Str → Option Language)
    (exts exts' fns tys : Str → Option (List Str)) (p : Str) (tf : Option Str)
    (ks : List Str) (h : fns (getBasename p) = some ks) :
    getLanguageByFileName ⟨langs, exts, fns, tys⟩ p tf =
      getLanguageByFileName ⟨langs, exts', fns, tys⟩ p tf ∧
    getLanguageByFileName ⟨langs, exts, fns, tys⟩ p tf =
      (if ks = [] then none
       else if 0 < (resolveCandidates langs ks tf).length
       then some (resolveCandidates langs ks tf) else none) := by
  have hck : ∀ e : Str → Option (List Str),
      candidateKeysFor ⟨langs, e, fns, tys⟩ p = ks := by
    intro e
    simp only [candidateKeysFor, h]
  constructor
  · simp only [getLanguageByFileName, hck]
  · simp only [getLanguageByFileName, hck]

theorem exact_filename_match_precedence_witness :
    buildFilenameIndex rawW (getBasename (str "pom.xml")) = some [str "maven pom"] ∧
    buildExtensionIndex rawW (str ".xml") = some [str "xml"] ∧
    getLanguageByFileName ⟨buildLanguagesDB rawW, buildExtensionIndex rawW,
        buildFilenameIndex rawW, buildTypesDB rawW⟩ (str "pom.xml") none =
      getLanguageByFileName ⟨buildLanguagesDB rawW, fun _ => none,
        buildFilenameIndex rawW, buildTypesDB rawW⟩ (str "pom.xml") none ∧
    getLanguageByFileName ⟨buildLanguagesDB rawW, buildExtensionIndex rawW,
        buildFilenameIndex rawW, buildTypesDB rawW⟩ (str "pom.xml") none =
      some [str "Maven POM"] :=
  ⟨by decide, by decide,
   (exact_filename_match_precedence (buildLanguagesDB rawW) (buildExtensionIndex rawW)
     (fun _ => none) (buildFilenameIndex rawW) (buildTypesDB rawW) (str "pom.xml") none
     [str "maven pom"] (by decide)).1,
   by decide⟩

/-- Claim C2: for every input string `p` and every optional category
filter, `getLanguageByFileName p` equals `getLanguageByFileName b`
where `b` is the basename of `p` — the substring after the rightmost
occurrence of `/` or `\` (all of `p` when neither occurs), so paths
mixing both separators give the same result as the bare basename. -/
theorem getLanguageByFileName_basename_invariant (d : ResolverData) (p : Str)
    (tf : Option Str) :
    getLanguageByFileName d p tf = getLanguageByFileName d (getBasename p) tf := by
  simp only [getLanguageByFileName, candidateKeysFor, getExtension,
    Option.getD_none, getBasename_idem]

/-- Claim C3: `getLanguageByFileName` never returns an empty sequence:
the result is either a non-empty list of names or the `null`
"not found" signal; in particular a filter that eliminates every
candidate yields "not found", never an empty array. -/
theorem getLanguageByFileName_never_empty (d : ResolverData) (p : Str)
    (tf : Option Str) :
    match getLanguageByFileName d p tf with
    | none => True
    | some l => 0 < l.length := by
  simp only [getLanguageByFileName]
  by_cases hc : candidateKeysFor d p = []
  · rw [if_pos hc]
    exact trivial
  · rw [if_neg hc]
    by_cases hr : 0 < (resolveCandidates d.languagesData (candidateKeysFor d p) tf).length
    · rw [if_pos hr]
      exact hr
    · rw [if_neg hr]
      exact trivial

/-- Claim C4: the list returned by a filtered `getLanguageByFileName`
call is a subsequence of the unfiltered call's list (and the
unfiltered call does return a list whenever the filtered one does). -/
theorem filtered_result_subsequence (d : ResolverData) (p : Str) (tf : Option Str)
    (l : List Str) (h : getLanguageByFileName d p tf = some l) :
    ∃ l', getLanguageByFileName d p none = some l' ∧ List.Sublist l l' := by
  simp only [getLanguageByFileName] at h ⊢
  by_cases hc : candidateKeysFor d p = []
  · rw [if_pos hc] at h
    cases h
  · rw [if_neg hc] at h ⊢
    have hsub := resolveCandidates_sublist d.languagesData (candidateKeysFor d p) tf
    by_cases hr : 0 < (resolveCandidates d.languagesData (candidateKeysFor d p) tf).length
    · rw [if_pos hr] at h
      injection h with h
      subst h
      have hlen : 0 < (resolveCandidates d.languagesData (candidateKeysFor d p) none).length :=
        lt_of_lt_of_le hr hsub.length_le
      rw [if_pos hlen]
      exact ⟨_, rfl, hsub⟩
    · rw [if_neg hr] at h
      cases h

theorem filtered_result_subsequence_witness :
    getLanguageByFileName (buildResolverData rawW) (str "lib.rs")
      (some (str "programming")) = some [str "Rust", str "RenderScript"] ∧
    (∃ l', getLanguageByFileName (buildResolverData rawW) (str "lib.rs") none = some l' ∧
      List.Sublist [str "Rust", str "RenderScript"] l') :=
  ⟨by decide,
   filtered_result_subsequence (buildResolverData rawW) (str "lib.rs")
     (some (str "programming")) [str "Rust", str "RenderScript"] (by decide)⟩

/-- Claim C5: `getLanguage` is case-insensitive: for every language
name `n` present in the dataset, `getLanguage n` and
`getLanguage (lowercase n)` return the identical record. -/
theorem getLanguage_case_insensitive (raw : RawDataset) (n : Str)
    (h : n ∈ raw.map Prod.fst) :
    ∃ rec, getLanguage (buildResolverData raw) n = some rec ∧
      getLanguage (buildResolverData raw) (toLowerStr n) = some rec := by
  obtain ⟨x, hx, hxn⟩ := List.mem_map.mp h
  obtain ⟨rec, hrec⟩ := buildLanguagesDB_isSome_of_mem raw (toLowerStr n)
    ⟨x, hx, by rw [hxn]⟩
  refine ⟨rec, ?_, ?_⟩
  · simp only [getLanguage, buildResolverData]
    exact hrec
  · simp only [getLanguage, buildResolverData, toLowerStr_idem]
    exact hrec

theorem getLanguage_case_insensitive_witness :
    ∃ rec, getLanguage (buildResolverData rawW) (str "TypeScript") = some rec ∧
      getLanguage (buildResolverData rawW) (toLowerStr (str "TypeScript")) = some rec :=
  getLanguage_case_insensitive rawW (str "TypeScript") (by decide)

/-- Claim C6: for every extension `e` claimed by two or more languages
of a raw dataset (whose lowercased keys are distinct, per the data
model's integrity invariant, and whose per-language extension lists are
duplicate-free), `getLanguageByFileName` on a path whose basename
parses to extension `e` and matches no exact filename returns the
display names of all claiming languages, in dataset iteration order. -/
theorem ambiguous_extension_returns_all (raw : RawDataset) (e p : Str)
    (hkeys : (raw.map (fun x => toLowerStr x.1)).Nodup)
    (hnodup : ∀ x ∈ raw, x.2.extensions.Nodup)
    (he : e ≠ [])
    (hext : getExtension p none = e)
    (hfn : buildFilenameIndex raw (getBasename p) = none)
    (hcl : 2 ≤ (raw.filter (fun x => decide (e ∈ x.2.extensions))).length) :
    getLanguageByFileName (buildResolverData raw) p none =
      some ((raw.filter (fun x => decide (e ∈ x.2.extensions))).map Prod.fst) := by
  have hclne : raw.filter (fun x => decide (e ∈ x.2.extensions)) ≠ [] := by
    intro h0
    rw [h0] at hcl
    simp at hcl
  have hkeq : keysFor (fun d => d.extensions) e raw =
      (raw.filter (fun x => decide (e ∈ x.2.extensions))).map (fun x => toLowerStr x.1) :=
    keysFor_eq_of_nodup _ e raw hnodup
  have hidx : buildExtensionIndex raw e =
      some ((raw.filter (fun x => decide (e ∈ x.2.extensions))).map (fun x => toLowerStr x.1)) := by
    rw [buildExtensionIndex, buildReverseIndex_eq, hkeq, if_neg (by simp [hclne])]
  have hck : candidateKeysFor (buildResolverData raw) p =
      (raw.filter (fun x => decide (e ∈ x.2.extensions))).map (fun x => toLowerStr x.1) := by
    simp only [candidateKeysFor, buildResolverData, hfn, hext]
    rw [if_pos he, hidx, Option.getD_some]
  have hres : resolveCandidates (buildLanguagesDB raw)
      ((raw.filter (fun x => decide (e ∈ x.2.extensions))).map (fun x => toLowerStr x.1)) none =
      (raw.filter (fun x => decide (e ∈ x.2.extensions))).map Prod.fst :=
    resolveCandidates_map_keys raw hkeys _ (fun x hx => List.mem_of_mem_filter hx)
  have hproj : (buildResolverData raw).languagesData = buildLanguagesDB raw := rfl
  simp only [getLanguageByFileName]
  rw [hck, hproj, if_neg (by simp [hclne]), hres,
    if_pos (by simp [List.length_map, List.length_pos, hclne])]

theorem ambiguous_extension_returns_all_witness :
    getLanguageByFileName (buildResolverData rawW) (str "src/lib.rs") none =
      some [str "Rust", str "RenderScript", str "XML"] :=
  (ambiguous_extension_returns_all rawW (str ".rs") (str "src/lib.rs")
    (by decide) (by decide) (by decide) (by decide) (by decide) (by decide)).trans
    (by decide)

/-- Claim C7 (amended): `getLanguagesByType c` returns the
CategoryIndex's stored display names for `c` — the original names of
the dataset entries whose category equals `c`, in iteration order —
without re-resolving them through `getLanguage`; an unrecognized `c`
yields the empty sequence. Only when the dataset's lowercased keys are
distinct is every returned name guaranteed to re-resolve through
`getLanguage` to a record whose category equals `c`. -/
theorem getLanguagesByType_characterization (raw : RawDataset) (c : Str) :
    (c ∈ recognizedTypes →
      getLanguagesByType (buildResolverData raw) c =
        (raw.filter (fun x => decide (x.2.type = c))).map Prod.fst) ∧
    (c ∉ recognizedTypes → getLanguagesByType (buildResolverData raw) c = []) ∧
    ((raw.map (fun x => toLowerStr x.1)).Nodup →
      ∀ n ∈ getLanguagesByType (buildResolverData raw) c,
        ∃ rec, getLanguage (buildResolverData raw) n = some rec ∧ rec.type = c) := by
  have hbase : getLanguagesByType (buildResolverData raw) c = (buildTypesDB raw c).getD [] := rfl
  refine ⟨?_, ?_, ?_⟩
  · intro h
    rw [hbase, buildTypesDB_eq, if_pos h, Option.getD_some]
  · intro h
    rw [hbase, buildTypesDB_eq, if_neg h]
    rfl
  · intro hkeys n hn
    by_cases h : c ∈ recognizedTypes
    · rw [hbase, buildTypesDB_eq, if_pos h, Option.getD_some] at hn
      obtain ⟨x, hxf, hx1⟩ := List.mem_map.mp hn
      have hxmem : x ∈ raw := List.mem_of_mem_filter hxf
      have hxtype : x.2.type = c := by simpa using List.of_mem_filter hxf
      refine ⟨mkRecord x.1 x.2, ?_, ?_⟩
      · simp only [getLanguage, buildResolverData]
        rw [← hx1]
        exact buildLanguagesDB_self raw hkeys x hxmem
      · simpa [mkRecord] using hxtype
    · rw [hbase, buildTypesDB_eq, if_neg h] at hn
      cases hn

theorem getLanguagesByType_characterization_witness :
    getLanguagesByType (buildResolverData rawW) (str "programming") =
      [str "TypeScript", str "Rust", str "RenderScript", str "Dockerfile"] ∧
    getLanguagesByType (buildResolverData rawW) (str "aliens") = [] :=
  ⟨((getLanguagesByType_characterization rawW (str "programming")).1 (by decide)).trans
     (by decide),
   (getLanguagesByType_characterization rawW (str "aliens")).2.1 (by decide)⟩

/-- Claim C7 as stated is false on the code: `getLanguagesByType`
returns `typesData[type] || []` directly, with no re-resolution through
`getLanguage`. Under the lowercase-key collision of `rawC7` it returns
the name `Foo` for category `programming` although re-resolving `Foo`
through `getLanguage` yields the surviving record, whose category is
`data` — so the output is not "every record whose category equals the
argument, obtained by re-resolving each stored display name". -/
theorem getLanguagesByType_not_reresolved :
    getLanguagesByType (buildResolverData rawC7) (str "programming") = [str "Foo"] ∧
    getLanguage (buildResolverData rawC7) (str "Foo") =
      some { name := str "FOO", type := str "data",
             extensions := [], filenames := [], group := none } := by
  constructor
  · decide
  · decide

/-- Claim C8: when two distinct original-case source names lowercase to
the same key, the later dataset entry silently overwrites the earlier
`LanguageRecord` at that key; the builder (a total function — it raises
no error and performs no uniqueness validation) keeps only the later
record. -/
theorem lowercase_collision_last_write_wins (l1 l2 l3 : RawDataset)
    (n1 n2 : Str) (d1 d2 : LinguistDef) (hne : n1 ≠ n2)
    (hkey : toLowerStr n1 = toLowerStr n2)
    (hafter : ∀ x ∈ l3, toLowerStr x.1 ≠ toLowerStr n2) :
    buildLanguagesDB (l1 ++ (n1, d1) :: l2 ++ (n2, d2) :: l3) (toLowerStr n1) =
      some (mkRecord n2 d2) ∧ mkRecord n2 d2 ≠ mkRecord n1 d1 := by
  constructor
  · rw [buildLanguagesDB, buildLanguagesDB_foldl, hkey]
    have hrev : (l1 ++ (n1, d1) :: l2 ++ (n2, d2) :: l3).reverse
        = l3.reverse ++ (n2, d2) :: (l2.reverse ++ (n1, d1) :: l1.reverse) := by
      simp
    rw [hrev, List.find?_append]
    have h3 : l3.reverse.find? (fun e => decide (toLowerStr e.1 = toLowerStr n2)) = none := by
      rw [List.find?_eq_none]
      intro x hx
      simp [hafter x (List.mem_reverse.mp hx)]
    rw [h3, List.find?_cons_of_pos _ (by simp)]
    rfl
  · intro h
    have hname := congrArg Language.name h
    simp only [mkRecord] at hname
    exact hne hname.symm

theorem lowercase_collision_last_write_wins_witness :
    buildLanguagesDB ([] ++ (str "Foo", ⟨str "programming", [], [], none⟩) ::
        [] ++ (str "FOO", ⟨str "data", [], [], none⟩) :: [])
      (toLowerStr (str "Foo")) =
      some (mkRecord (str "FOO") ⟨str "data", [], [], none⟩) ∧
    mkRecord (str "FOO") (⟨str "data", [], [], none⟩ : LinguistDef) ≠
      mkRecord (str "Foo") ⟨str "programming", [], [], none⟩ :=
  lowercase_collision_last_write_wins [] [] []
    (str "Foo") (str "FOO") ⟨str "programming", [], [], none⟩ ⟨str "data", [], [], none⟩
    (by decide) (by decide) (by decide)

/-- Claim C9: for every raw dataset, every language key appearing in
any entry of the extension reverse index or of the filename reverse
index exists as a key of the built language store (no dangling
reverse-index keys), including when lowercase-key collisions occur. -/
theorem no_dangling_reverse_index_keys (raw : RawDataset) (ident k : Str) :
    (∀ ks, buildExtensionIndex raw ident = some ks → k ∈ ks →
      ∃ rec, buildLanguagesDB raw k = some rec) ∧
    (∀ ks, buildFilenameIndex raw ident = some ks → k ∈ ks →
      ∃ rec, buildLanguagesDB raw k = some rec) := by
  constructor
  · intro ks hks hk
    rw [buildExtensionIndex, buildReverseIndex_eq] at hks
    by_cases h : keysFor (fun d => d.extensions) ident raw = []
    · rw [if_pos h] at hks
      cases hks
    · rw [if_neg h] at hks
      injection hks with hks
      subst hks
      exact buildLanguagesDB_isSome_of_mem raw k (mem_keysFor _ ident k raw hk)
  · intro ks hks hk
    rw [buildFilenameIndex, buildReverseIndex_eq] at hks
    by_cases h : keysFor (fun d => d.filenames) ident raw = []
    · rw [if_pos h] at hks
      cases hks
    · rw [if_neg h] at hks
      injection hks with hks
      subst hks
      exact buildLanguagesDB_isSome_of_mem raw k (mem_keysFor _ ident k raw hk)

theorem no_dangling_reverse_index_keys_witness :
    (buildExtensionIndex rawC7 (str ".x") = none ∧
      buildExtensionIndex rawW (str ".ts") = some [str "typescript"]) ∧
    (∃ rec, buildLanguagesDB rawW (str "typescript") = some rec) ∧
    (∃ rec, buildLanguagesDB rawW (str "maven pom") = some rec) :=
  ⟨⟨by decide, by decide⟩,
   (no_dangling_reverse_index_keys rawW (str ".ts") (str "typescript")).1
     [str "typescript"] (by decide) (by decide),
   (no_dangling_reverse_index_keys rawW (str "pom.xml") (str "maven pom")).2
     [str "maven pom"] (by decide) (by decide)⟩

/-- Claim C10: filename and extension matching is case-sensitive —
the basename and extracted extension are compared to the index keys
without lowercasing, so whenever the exact-case lookups both miss
(even if a lowercased form would hit), the result is `null`. -/
theorem file_lookup_case_sensitive (d : ResolverData) (p : Str) (tf : Option Str)
    (hfn : d.filenamesData (getBasename p) = none)
    (hext : d.extensionsData (getExtension p none) = none) :
    getLanguageByFileName d p tf = none := by
  have hck : candidateKeysFor d p = [] := by
    simp only [candidateKeysFor, hfn, hext]
    split <;> rfl
  simp only [getLanguageByFileName, hck]
  rfl

theorem file_lookup_case_sensitive_witness :
    buildExtensionIndex rawW (toLowerStr (getExtension (str "a/MAIN.TS") none)) =
      some [str "typescript"] ∧
    getLanguageByFileName (buildResolverData rawW) (str "a/MAIN.TS") none = none :=
  ⟨by decide,
   file_lookup_case_sensitive (buildResolverData rawW) (str "a/MAIN.TS") none
     (by decide) (by decide)⟩

end FileLangMap
